import Mathlib

/-!
Verification of the fused cross-entropy loss kernels
(`src/unsloth/kernels/cross_entropy_loss.py`).

A row of logits is modelled as `List ℝ`; a label is an `Int` (the sentinel
`-100` means "ignore this row").  The Triton kernels load a block of lanes
with `mask = col_offsets < VOCAB_SIZE, other = -inf`; since `-inf` is the
neutral element of both `max` and `fun x => exp x` (it contributes `0` to
every sum of exponentials), a masked block reduces exactly to the list of
in-range columns, which is how the load is modelled here.
-/

/-- The ignore sentinel: labels equal to `-100` contribute no loss/gradient. -/
def IGNORE_INDEX : Int := -100

/-- `MAX_FUSED_SIZE = 65536`, the single-pass block-size bound from the source. -/
def MAX_FUSED_SIZE : Nat := 65536

/-- `tl.max(logits, 0)` over the in-range lanes of a block: the maximum of a
list (junk value `0` for the empty list, which the kernels never reduce). -/
def listMax : List ℝ → ℝ
  | [] => 0
  | [x] => x
  | x :: y :: t => max x (listMax (y :: t))

/-- The stabilized row reduction `c + tl.log(tl.sum(tl.exp(logits - c), 0))`
with `c = tl.max(logits, 0)`, shared by `_cross_entropy_forward` (whole row)
and, up to the order of the final addition, `_large_cross_entropy_forward`
(one chunk) and `torch.logsumexp` (the combine step). -/
noncomputable def rowLogsumexp (xs : List ℝ) : ℝ :=
  listMax xs + Real.log ((xs.map (fun x => Real.exp (x - listMax xs))).sum)

/-- `_cross_entropy_forward` for one row: returns `(loss, logsumexp)`, the two
values the kernel stores to `loss_ptr` and `logsumexp_ptr`.  The unmasked
load `tl.load(logits_ptr + label_idx)` is modelled by `getD` (theorems about
it carry an in-range hypothesis, matching the undefined-input caveat). -/
noncomputable def cross_entropy_forward (row : List ℝ) (label : Int) : ℝ × ℝ :=
  let logsumexp := rowLogsumexp row
  if label ≠ IGNORE_INDEX then
    (logsumexp - row.getD label.toNat 0, logsumexp)
  else
    (0, logsumexp)

/-- `_large_cross_entropy_forward` for one `(row, chunk)` grid cell with chunk
index `k` and `BLOCK_SIZE = bs`: the masked load selects columns
`[k*bs, min ((k+1)*bs, n_cols))`, i.e. `(row.drop (k*bs)).take bs`.  Returns
`(loss_partial, lse_partial)` as stored to `loss_ptr` and `lse_ptr`; the
stored lse is written before the in-kernel `lse = 0.0` reassignment, so the
partial loss of the label's chunk is `0.0 - logits_label`. -/
noncomputable def large_cross_entropy_forward (row : List ℝ) (label : Int)
    (bs k : Nat) : ℝ × ℝ :=
  let logits := (row.drop (k * bs)).take bs
  let max_logits := listMax logits
  let lse := Real.log ((logits.map (fun x => Real.exp (x - max_logits))).sum) + max_logits
  let loss : ℝ :=
    if label ≠ IGNORE_INDEX ∧ (k * bs : Int) ≤ label ∧
        label < min (((k + 1) * bs : Nat) : Int) (row.length : Int) then
      (0 : ℝ) - row.getD label.toNat 0
    else 0
  (loss, lse)

/-- `div, mod = divmod(vocab_size, bs); n_chunks = div + (mod != 0)`. -/
def nChunksOf (n bs : Nat) : Nat := n / bs + (if n % bs = 0 then 0 else 1)

/-- The chunked branch of `Fast_CrossEntropyLoss.forward` for one row:
launch `_large_cross_entropy_forward` over all chunks, combine the per-chunk
lse partials with `torch.logsumexp`, sum the per-chunk loss partials, add the
combined logsumexp once, and zero ignored rows (`masked_fill_`).  Returns
`(loss, logsumexp)`. -/
noncomputable def large_forward (row : List ℝ) (label : Int) (bs : Nat) : ℝ × ℝ :=
  let n_chunks := nChunksOf row.length bs
  let parts := (List.range n_chunks).map (fun k => large_cross_entropy_forward row label bs k)
  let logsumexp := rowLogsumexp (parts.map Prod.snd)
  let losses := (parts.map Prod.fst).sum + logsumexp
  (if label = IGNORE_INDEX then 0 else losses, logsumexp)

/-- `Fast_CrossEntropyLoss.forward` for one row: dispatch on
`n_chunks == 1` between the single-pass and the chunked kernel.
Returns `(loss, logsumexp)`; the logsumexp is what `ctx.save_for_backward`
retains for the backward pass. -/
noncomputable def Fast_CrossEntropyLoss_forward (row : List ℝ) (label : Int) : ℝ × ℝ :=
  if nChunksOf row.length MAX_FUSED_SIZE = 1 then
    cross_entropy_forward row label
  else
    large_forward row label MAX_FUSED_SIZE

/-- Column recursion of `_cross_entropy_backward`: starting at column `j`,
each element `x` is overwritten with `d * y` where `y = exp(x - logsumexp)`,
decremented by `1` on the label column (`tl.where(col_offsets == label_idx,
y - 1.0, y)`).  `d` is the dloss factor already resolved against the ignore
sentinel.  The kernel's blocks partition the columns disjointly, so the
per-block grid is equivalent to this single left-to-right pass. -/
noncomputable def ce_backward_cols (logsumexp : ℝ) (label : Int) (d : ℝ) :
    Nat → List ℝ → List ℝ
  | _, [] => []
  | j, x :: xs =>
    (d * (if (j : Int) = label then Real.exp (x - logsumexp) - 1
          else Real.exp (x - logsumexp)))
      :: ce_backward_cols logsumexp label d (j + 1) xs

/-- `_cross_entropy_backward` for one row: `dloss = tl.load(dloss_ptr) if
label_idx != -100 else 0.0`, then every column is overwritten in place. -/
noncomputable def cross_entropy_backward (row : List ℝ) (logsumexp : ℝ)
    (label : Int) (dloss : ℝ) : List ℝ :=
  ce_backward_cols logsumexp label (if label ≠ IGNORE_INDEX then dloss else 0) 0 row

/-- Per-row losses of `Fast_CrossEntropyLoss.apply` on the flattened
`(batch*seq_len, vocab)` view: one loss per `(row, label)` pair. -/
noncomputable def forward_losses (rows : List (List ℝ)) (labels : List Int) : List ℝ :=
  (rows.zip labels).map (fun p => (Fast_CrossEntropyLoss_forward p.1 p.2).1)

/-- IEEE-754 style value of a float expression whose operands are finite:
either a real number, `nan`, or a signed infinity.  Used to model the final
`loss.sum() / n_items` torch division, whose result is not a real number
when `n_items == 0`. -/
inductive FVal
  | nan : FVal
  | pinf : FVal
  | ninf : FVal
  | num : ℝ → FVal

/-- IEEE-754 division of finite operands: `0/0 = nan`, `±a/0 = ±inf`,
ordinary quotient otherwise.  This models the `torch` float division in
`fast_cross_entropy_loss`. -/
noncomputable def fdiv (a b : ℝ) : FVal :=
  if b = 0 then
    if a = 0 then FVal.nan else if 0 < a then FVal.pinf else FVal.ninf
  else FVal.num (a / b)

/-- `fast_cross_entropy_loss`: flatten (the caller passes the already
flattened rows), apply `Fast_CrossEntropyLoss`, and normalize the summed
loss by `n_items = torch.count_nonzero(labels != -100)`. -/
noncomputable def fast_cross_entropy_loss (rows : List (List ℝ)) (labels : List Int) : FVal :=
  let loss := forward_losses rows labels
  let n_items := labels.countP (fun l => l ≠ IGNORE_INDEX)
  fdiv loss.sum (n_items : ℝ)

/-! ### Core facts about the stabilized reduction -/

theorem sum_map_exp_pos (f : ℝ → ℝ) (xs : List ℝ) (h : xs ≠ []) :
    0 < (xs.map (fun x => Real.exp (f x))).sum := by
  cases xs with
  | nil => exact absurd rfl h
  | cons a t =>
    simp only [List.map_cons, List.sum_cons]
    have ht : 0 ≤ (t.map (fun x => Real.exp (f x))).sum := by
      apply List.sum_nonneg
      intro x hx
      rcases List.mem_map.mp hx with ⟨y, _, rfl⟩
      exact le_of_lt (Real.exp_pos _)
    exact add_pos_of_pos_of_nonneg (Real.exp_pos _) ht

theorem sum_map_exp_sub (c : ℝ) (xs : List ℝ) :
    (xs.map (fun x => Real.exp (x - c))).sum = (xs.map Real.exp).sum * Real.exp (-c) := by
  induction xs with
  | nil => simp
  | cons a t ih =>
    simp only [List.map_cons, List.sum_cons, ih, add_mul]
    rw [sub_eq_add_neg, Real.exp_add]

theorem rowLogsumexp_eq (xs : List ℝ) (h : xs ≠ []) :
    rowLogsumexp xs = Real.log ((xs.map Real.exp).sum) := by
  have hpos : 0 < (xs.map Real.exp).sum := by
    simpa using sum_map_exp_pos id xs h
  unfold rowLogsumexp
  rw [sum_map_exp_sub, Real.log_mul (ne_of_gt hpos) (ne_of_gt (Real.exp_pos _)),
    Real.log_exp]
  ring

theorem exp_rowLogsumexp (xs : List ℝ) (h : xs ≠ []) :
    Real.exp (rowLogsumexp xs) = (xs.map Real.exp).sum := by
  rw [rowLogsumexp_eq xs h]
  exact Real.exp_log (by simpa using sum_map_exp_pos id xs h)

theorem softmax_sum_one (xs : List ℝ) (h : xs ≠ []) :
    (xs.map (fun x => Real.exp (x - rowLogsumexp xs))).sum = 1 := by
  rw [sum_map_exp_sub, Real.exp_neg, exp_rowLogsumexp xs h]
  have hpos : 0 < (xs.map Real.exp).sum := by
    simpa using sum_map_exp_pos id xs h
  field_simp

theorem le_listMax (xs : List ℝ) (a : ℝ) (ha : a ∈ xs) : a ≤ listMax xs := by
  induction xs with
  | nil => simp at ha
  | cons x t ih =>
    cases t with
    | nil =>
      rcases List.mem_cons.mp ha with h | h
      · simp [listMax, h]
      · simp at h
    | cons y u =>
      rcases List.mem_cons.mp ha with h | h
      · simp [listMax, h]
      · exact le_trans (ih h) (by simp [listMax])

theorem listMax_mem (xs : List ℝ) (h : xs ≠ []) : listMax xs ∈ xs := by
  induction xs with
  | nil => exact absurd rfl h
  | cons x t ih =>
    cases t with
    | nil => simp [listMax]
    | cons y u =>
      simp only [listMax]
      rcases max_choice x (listMax (y :: u)) with hm | hm
      · rw [hm]; exact List.mem_cons_self x _
      · rw [hm]; exact List.mem_cons_of_mem x (ih (by simp))

/-! ### Facts about the backward column pass -/

theorem ce_backward_cols_length (lse : ℝ) (label : Int) (d : ℝ) :
    ∀ (xs : List ℝ) (j0 : Nat), (ce_backward_cols lse label d j0 xs).length = xs.length := by
  intro xs
  induction xs with
  | nil => intro j0; rfl
  | cons x t ih => intro j0; simp [ce_backward_cols, ih]

theorem ce_backward_cols_getD (lse : ℝ) (label : Int) (d : ℝ) :
    ∀ (xs : List ℝ) (j0 i : Nat), i < xs.length →
      (ce_backward_cols lse label d j0 xs).getD i 0 =
        d * (if ((j0 + i : Nat) : Int) = label then Real.exp (xs.getD i 0 - lse) - 1
             else Real.exp (xs.getD i 0 - lse)) := by
  intro xs
  induction xs with
  | nil => intro j0 i h; simp at h
  | cons x t ih =>
    intro j0 i h
    cases i with
    | zero => simp [ce_backward_cols]
    | succ m =>
      have hm : m < t.length := by simpa using h
      simp only [ce_backward_cols, List.getD_cons_succ]
      rw [ih (j0 + 1) m hm]
      have harith : j0 + 1 + m = j0 + (m + 1) := by omega
      rw [harith]

theorem ce_backward_cols_sum (lse : ℝ) (label : Int) (d : ℝ) :
    ∀ (xs : List ℝ) (j0 : Nat),
      (ce_backward_cols lse label d j0 xs).sum =
        d * (xs.map (fun x => Real.exp (x - lse))).sum -
          (if (j0 : Int) ≤ label ∧ label < (j0 : Int) + xs.length then d else 0) := by
  intro xs
  induction xs with
  | nil =>
    intro j0
    have hc : ¬ ((j0 : Int) ≤ label ∧ label < (j0 : Int) + ([] : List ℝ).length) := by
      simp only [List.length_nil]
      omega
    simp [ce_backward_cols, hc]
  | cons x t ih =>
    intro j0
    simp only [ce_backward_cols, List.sum_cons, List.map_cons]
    rw [ih (j0 + 1)]
    by_cases hc : (j0 : Int) = label
    · have h1 : ¬ (((j0 + 1 : Nat) : Int) ≤ label ∧ label < ((j0 + 1 : Nat) : Int) + t.length) := by
        push_cast
        omega
      have h2 : (j0 : Int) ≤ label ∧ label < (j0 : Int) + (x :: t).length := by
        simp only [List.length_cons]
        push_cast
        omega
      rw [if_pos hc, if_neg h1, if_pos h2]
      ring
    · have hsame : (((j0 + 1 : Nat) : Int) ≤ label ∧ label < ((j0 + 1 : Nat) : Int) + t.length) ↔
          ((j0 : Int) ≤ label ∧ label < (j0 : Int) + (x :: t).length) := by
        simp only [List.length_cons]
        push_cast
        omega
      rw [if_neg hc, if_congr hsame rfl rfl]
      split
      · ring
      · ring

theorem ce_backward_cols_zero (lse : ℝ) (label : Int) :
    ∀ (xs : List ℝ) (j0 : Nat) (v : ℝ), v ∈ ce_backward_cols lse label 0 j0 xs → v = 0 := by
  intro xs
  induction xs with
  | nil => intro j0 v hv; simp [ce_backward_cols] at hv
  | cons x t ih =>
    intro j0 v hv
    rcases List.mem_cons.mp hv with h | h
    · rw [h]; ring
    · exact ih (j0 + 1) v h

/-! ### Helper facts shared by the claims -/

theorem lse_independent_single (row : List ℝ) (label : Int) :
    (cross_entropy_forward row label).2 = rowLogsumexp row := by
  simp only [cross_entropy_forward]
  split <;> rfl

theorem large_chunk_lse (row : List ℝ) (label : Int) (bs k : Nat) :
    (large_cross_entropy_forward row label bs k).2 =
      rowLogsumexp ((row.drop (k * bs)).take bs) := by
  simp only [large_cross_entropy_forward, rowLogsumexp]
  ring

theorem large_forward_lse (row : List ℝ) (label : Int) (bs : Nat) :
    (large_forward row label bs).2 =
      rowLogsumexp (((List.range (nChunksOf row.length bs)).map
        (fun k => large_cross_entropy_forward row label bs k)).map Prod.snd) := rfl

theorem single_loss_ignore (row : List ℝ) :
    (cross_entropy_forward row IGNORE_INDEX).1 = 0 := by
  simp [cross_entropy_forward]

theorem large_loss_ignore (row : List ℝ) (bs : Nat) :
    (large_forward row IGNORE_INDEX bs).1 = 0 := by
  simp [large_forward]

theorem fast_loss_ignore (row : List ℝ) :
    (Fast_CrossEntropyLoss_forward row IGNORE_INDEX).1 = 0 := by
  unfold Fast_CrossEntropyLoss_forward
  split
  · exact single_loss_ignore row
  · exact large_loss_ignore row _

theorem backward_unfold (row : List ℝ) (lse : ℝ) (label : Int) (d : ℝ)
    (hlab : label ≠ IGNORE_INDEX) :
    cross_entropy_backward row lse label d = ce_backward_cols lse label d 0 row := by
  unfold cross_entropy_backward
  rw [if_pos hlab]

/-! ### The claims -/

/-- C1: the single-pass forward reducer returns `logsumexp = c + log(sum(exp(row
- c)))` with `c = max(row)`, loss `logsumexp - row[label]` for a non-ignored
in-range label, and loss `0` for the ignore sentinel. -/
theorem claim_C1 (row : List ℝ) (label : Int) :
    (cross_entropy_forward row label).2 =
      listMax row + Real.log ((row.map (fun x => Real.exp (x - listMax row))).sum) ∧
    (label ≠ -100 → 0 ≤ label → label < (row.length : Int) →
      (cross_entropy_forward row label).1 =
        (cross_entropy_forward row label).2 - row.getD label.toNat 0) ∧
    (label = -100 → (cross_entropy_forward row label).1 = 0) := by
  refine ⟨lse_independent_single row label, ?_, ?_⟩
  · intro hne _ _
    have hne' : label ≠ IGNORE_INDEX := hne
    simp only [cross_entropy_forward]
    rw [if_pos hne']
  · intro h
    subst h
    exact single_loss_ignore row

/-- C1 witness: concrete instance on the row `[1, 2]`. -/
theorem claim_C1_witness :
    (((1 : Int) ≠ -100 ∧ (0 : Int) ≤ 1 ∧ (1 : Int) < (([(1:ℝ), 2]).length : Int)) ∧
      (cross_entropy_forward [(1:ℝ), 2] 1).1 =
        (cross_entropy_forward [(1:ℝ), 2] 1).2 - ([(1:ℝ), 2]).getD 1 0) ∧
    (cross_entropy_forward [(1:ℝ), 2] (-100)).1 = 0 := by
  refine ⟨⟨⟨by norm_num, by norm_num, by norm_num⟩, ?_⟩, ?_⟩
  · exact (claim_C1 [(1:ℝ), 2] 1).2.1 (by norm_num) (by norm_num) (by norm_num)
  · exact (claim_C1 [(1:ℝ), 2] (-100)).2.2 rfl

/-- C2: for a non-ignored label the backward pass rewrites every column `j`
of the row with `upstream * g_j`, `g_j = exp(row[j] - logsumexp) - [j = label]`,
where `logsumexp` is exactly the value the forward pass produced. -/
theorem claim_C2 (row : List ℝ) (label : Int) (d : ℝ) (hlab : label ≠ -100) :
    (cross_entropy_backward row (Fast_CrossEntropyLoss_forward row label).2 label d).length
        = row.length ∧
    ∀ i, i < row.length →
      (cross_entropy_backward row (Fast_CrossEntropyLoss_forward row label).2 label d).getD i 0 =
        d * (if (i : Int) = label then
              Real.exp (row.getD i 0 - (Fast_CrossEntropyLoss_forward row label).2) - 1
             else Real.exp (row.getD i 0 - (Fast_CrossEntropyLoss_forward row label).2)) := by
  have hlab' : label ≠ IGNORE_INDEX := hlab
  rw [backward_unfold _ _ _ _ hlab']
  constructor
  · exact ce_backward_cols_length _ _ _ row 0
  · intro i hi
    rw [ce_backward_cols_getD _ _ _ row 0 i hi]
    norm_num

/-- C2 witness: concrete instance on the row `[0, 1]` with label `1`. -/
theorem claim_C2_witness :
    (1 : Int) ≠ -100 ∧
    ((cross_entropy_backward [(0:ℝ), 1] (Fast_CrossEntropyLoss_forward [(0:ℝ), 1] 1).2 1 2).length
        = ([(0:ℝ), 1] : List ℝ).length ∧
      ∀ i, i < ([(0:ℝ), 1] : List ℝ).length →
        (cross_entropy_backward [(0:ℝ), 1]
            (Fast_CrossEntropyLoss_forward [(0:ℝ), 1] 1).2 1 2).getD i 0 =
          2 * (if (i : Int) = 1 then
                Real.exp (([(0:ℝ), 1]).getD i 0 - (Fast_CrossEntropyLoss_forward [(0:ℝ), 1] 1).2) - 1
               else Real.exp (([(0:ℝ), 1]).getD i 0 - (Fast_CrossEntropyLoss_forward [(0:ℝ), 1] 1).2))) :=
  ⟨by norm_num, claim_C2 [(0:ℝ), 1] 1 2 (by norm_num)⟩

/-- C5: a row labelled with the ignore sentinel has zero forward loss on the
single-pass path, the chunked path and the dispatching forward, and its
backward pass writes zero to every element. -/
theorem claim_C5 (row : List ℝ) (bs : Nat) (lse d : ℝ) :
    (cross_entropy_forward row (-100)).1 = 0 ∧
    (large_forward row (-100) bs).1 = 0 ∧
    (Fast_CrossEntropyLoss_forward row (-100)).1 = 0 ∧
    ∀ v ∈ cross_entropy_backward row lse (-100) d, v = 0 := by
  refine ⟨single_loss_ignore row, large_loss_ignore row bs, fast_loss_ignore row, ?_⟩
  intro v hv
  have heq : cross_entropy_backward row lse (-100) d = ce_backward_cols lse (-100) 0 0 row := by
    unfold cross_entropy_backward
    rw [if_neg]
    simp [IGNORE_INDEX]
  rw [heq] at hv
  exact ce_backward_cols_zero lse (-100) row 0 v hv

/-- C10: the stored log-sum-exp values (single-pass, per chunk, combined, and
dispatched) do not depend on the labels. -/
theorem claim_C10 (row : List ℝ) (l1 l2 : Int) (bs k : Nat) :
    (cross_entropy_forward row l1).2 = (cross_entropy_forward row l2).2 ∧
    (large_cross_entropy_forward row l1 bs k).2 = (large_cross_entropy_forward row l2 bs k).2 ∧
    (large_forward row l1 bs).2 = (large_forward row l2 bs).2 ∧
    (Fast_CrossEntropyLoss_forward row l1).2 = (Fast_CrossEntropyLoss_forward row l2).2 := by
  have hchunk : ∀ (l : Int) (k' : Nat),
      (large_cross_entropy_forward row l bs k').2 =
        rowLogsumexp ((row.drop (k' * bs)).take bs) :=
    fun l k' => large_chunk_lse row l bs k'
  have hlarge : ∀ bs' : Nat, (large_forward row l1 bs').2 = (large_forward row l2 bs').2 := by
    intro bs'
    rw [large_forward_lse, large_forward_lse, List.map_map, List.map_map]
    have hmaps : (List.range (nChunksOf row.length bs')).map
        (Prod.snd ∘ fun k' => large_cross_entropy_forward row l1 bs' k') =
        (List.range (nChunksOf row.length bs')).map
        (Prod.snd ∘ fun k' => large_cross_entropy_forward row l2 bs' k') := by
      apply List.map_congr_left
      intro a _
      simp only [Function.comp_apply]
      rw [large_chunk_lse, large_chunk_lse]
    rw [hmaps]
  refine ⟨?_, ?_, hlarge bs, ?_⟩
  · rw [lse_independent_single, lse_independent_single]
  · rw [hchunk l1 k, hchunk l2 k]
  · unfold Fast_CrossEntropyLoss_forward
    split
    · rw [lse_independent_single, lse_independent_single]
    · exact hlarge MAX_FUSED_SIZE

/-! ### Chunk arithmetic -/

theorem nChunksOf_succ_sub (bs n : Nat) (h1 : 1 ≤ bs) (hn : 1 ≤ n) :
    nChunksOf n bs = nChunksOf (n - bs) bs + 1 := by
  unfold nChunksOf
  by_cases hle : bs ≤ n
  · obtain ⟨a, rfl⟩ : ∃ a, n = a + bs := ⟨n - bs, by omega⟩
    rw [Nat.add_div_right _ (by omega), Nat.add_mod_right]
    simp only [Nat.add_sub_cancel]
    split_ifs <;> omega
  · have hlt : n < bs := by omega
    rw [Nat.div_eq_of_lt hlt, Nat.mod_eq_of_lt hlt]
    have hz : n - bs = 0 := by omega
    rw [hz, if_neg (by omega : ¬ n = 0)]
    simp

theorem nChunksOf_pos (bs n : Nat) (h1 : 1 ≤ bs) (hn : 1 ≤ n) : 1 ≤ nChunksOf n bs := by
  rw [nChunksOf_succ_sub bs n h1 hn]
  omega

theorem nChunksOf_mul_ge (bs n : Nat) (h1 : 1 ≤ bs) : n ≤ nChunksOf n bs * bs := by
  have hdm := Nat.div_add_mod n bs
  have hm : n % bs < bs := Nat.mod_lt n (by omega)
  unfold nChunksOf
  rw [Nat.add_mul, Nat.mul_comm (n / bs) bs]
  by_cases h : n % bs = 0
  · rw [if_pos h]
    rw [h, Nat.add_zero] at hdm
    rw [Nat.zero_mul, Nat.add_zero]
    exact Nat.le_of_eq hdm.symm
  · rw [if_neg h, Nat.one_mul]
    calc n = bs * (n / bs) + n % bs := hdm.symm
      _ ≤ bs * (n / bs) + bs := Nat.add_le_add_left (Nat.le_of_lt hm) _

theorem chunk_start_lt (bs n k : Nat) (h1 : 1 ≤ bs) (hk : k < nChunksOf n bs) :
    k * bs < n := by
  by_contra hcon
  push_neg at hcon
  have hdiv : n / bs ≤ k := by
    have hdd := Nat.div_le_div_right (c := bs) hcon
    rwa [Nat.mul_div_cancel k (by omega : 0 < bs)] at hdd
  unfold nChunksOf at hk
  by_cases h : n % bs = 0
  · rw [if_pos h] at hk
    generalize hq : n / bs = q at hk hdiv
    omega
  · rw [if_neg h] at hk
    have hkeq : k = n / bs := by
      generalize hq : n / bs = q at hk hdiv
      omega
    have hdm := Nat.div_add_mod n bs
    subst hkeq
    rw [Nat.mul_comm] at hcon
    generalize hA : bs * (n / bs) = A at hdm hcon
    generalize hB : n % bs = B at hdm h
    omega

theorem chunk_ne_nil (bs k : Nat) (row : List ℝ) (h1 : 1 ≤ bs)
    (hk : k < nChunksOf row.length bs) :
    (row.drop (k * bs)).take bs ≠ [] := by
  have hlt := chunk_start_lt bs row.length k h1 hk
  intro hnil
  have hlen0 : ((row.drop (k * bs)).take bs).length = 0 := by rw [hnil]; rfl
  rw [List.length_take, List.length_drop] at hlen0
  generalize hs : k * bs = s at hlt hlen0
  omega

theorem chunks_exp_sum (bs : Nat) (h1 : 1 ≤ bs) (row : List ℝ) :
    ((List.range (nChunksOf row.length bs)).map
      (fun k => ((((row.drop (k * bs)).take bs).map Real.exp).sum))).sum
    = (row.map Real.exp).sum := by
  generalize hn : row.length = n
  induction n using Nat.strong_induction_on generalizing row with
  | _ n ih =>
    cases row with
    | nil =>
      have : n = 0 := by rw [← hn]; rfl
      subst this
      simp [nChunksOf]
    | cons a t =>
      have hn1 : 1 ≤ n := by rw [← hn]; simp
      rw [nChunksOf_succ_sub bs n h1 hn1, List.range_succ_eq_map,
        List.map_cons, List.sum_cons, List.map_map]
      have hrec := ih (n - bs) (by omega) ((a :: t).drop bs)
        (by rw [List.length_drop, hn])
      have hmape : (List.range (nChunksOf (n - bs) bs)).map
          ((fun k => ((((a :: t).drop (k * bs)).take bs).map Real.exp).sum) ∘ Nat.succ) =
          (List.range (nChunksOf (n - bs) bs)).map
          (fun k => (((((a :: t).drop bs).drop (k * bs)).take bs).map Real.exp).sum) := by
        apply List.map_congr_left
        intro k _
        simp only [Function.comp_apply, Nat.succ_eq_add_one, List.drop_drop]
        have harith : (k + 1) * bs = bs + k * bs := by ring
        rw [harith]
      rw [hmape, hrec]
      have hsplit : ((a :: t).map Real.exp).sum =
          (((a :: t).take bs).map Real.exp).sum + (((a :: t).drop bs).map Real.exp).sum := by
        conv_lhs => rw [← List.take_append_drop bs (a :: t)]
        rw [List.map_append, List.sum_append]
      rw [hsplit, Nat.zero_mul, List.drop_zero]

theorem large_forward_lse_eq (row : List ℝ) (label : Int) (bs : Nat)
    (h1 : 1 ≤ bs) (hrow : row ≠ []) :
    (large_forward row label bs).2 = rowLogsumexp row := by
  have hrowlen : 1 ≤ row.length := by
    cases row with
    | nil => exact absurd rfl hrow
    | cons a t => simp
  have hnpos : 1 ≤ nChunksOf row.length bs := nChunksOf_pos bs row.length h1 hrowlen
  rw [large_forward_lse, List.map_map]
  have hlses : (List.range (nChunksOf row.length bs)).map
      (Prod.snd ∘ fun k => large_cross_entropy_forward row label bs k) =
      (List.range (nChunksOf row.length bs)).map
      (fun k => rowLogsumexp ((row.drop (k * bs)).take bs)) := by
    apply List.map_congr_left
    intro k _
    simp only [Function.comp_apply]
    exact large_chunk_lse row label bs k
  rw [hlses]
  have hne : (List.range (nChunksOf row.length bs)).map
      (fun k => rowLogsumexp ((row.drop (k * bs)).take bs)) ≠ [] := by
    intro h
    have hlen := congrArg List.length h
    simp at hlen
    omega
  rw [rowLogsumexp_eq _ hne, rowLogsumexp_eq row hrow]
  congr 1
  rw [List.map_map]
  have hpt : (List.range (nChunksOf row.length bs)).map
      (Real.exp ∘ fun k => rowLogsumexp ((row.drop (k * bs)).take bs)) =
      (List.range (nChunksOf row.length bs)).map
      (fun k => (((row.drop (k * bs)).take bs).map Real.exp).sum) := by
    apply List.map_congr_left
    intro k hk
    simp only [Function.comp_apply]
    exact exp_rowLogsumexp _ (chunk_ne_nil bs k row h1 (List.mem_range.mp hk))
  rw [hpt]
  exact chunks_exp_sum bs h1 row

theorem chunk_loss_eq (row : List ℝ) (label : Int) (bs k : Nat)
    (hlab : label ≠ -100) (h0 : 0 ≤ label) (hL : label < (row.length : Int)) :
    (large_cross_entropy_forward row label bs k).1 =
      if k * bs ≤ label.toNat ∧ label.toNat < (k + 1) * bs then
        -(row.getD label.toNat 0)
      else 0 := by
  have hlab' : label ≠ IGNORE_INDEX := hlab
  obtain ⟨l, rfl⟩ := Int.eq_ofNat_of_zero_le h0
  have hLn : l < row.length := by exact_mod_cast hL
  simp only [large_cross_entropy_forward, Int.toNat_natCast]
  split_ifs with ha hb hb
  · ring
  · exfalso
    apply hb
    rcases ha with ⟨-, hA, hB⟩
    rw [lt_min_iff] at hB
    exact ⟨by exact_mod_cast hA, by exact_mod_cast hB.1⟩
  · exfalso
    apply ha
    refine ⟨hlab', by exact_mod_cast hb.1, ?_⟩
    rw [lt_min_iff]
    exact ⟨by exact_mod_cast hb.2, by exact_mod_cast hLn⟩
  · rfl

theorem sum_range_single (f : Nat → ℝ) (n k0 : Nat) (hk : k0 < n)
    (hz : ∀ k, k ≠ k0 → f k = 0) :
    ((List.range n).map f).sum = f k0 := by
  induction n with
  | zero => omega
  | succ m ih =>
    rw [List.range_succ, List.map_append, List.sum_append]
    simp only [List.map_cons, List.map_nil, List.sum_cons, List.sum_nil, add_zero]
    by_cases h : k0 = m
    · subst h
      have hzero : ((List.range k0).map f).sum = 0 := by
        apply List.sum_eq_zero
        intro x hx
        rcases List.mem_map.mp hx with ⟨k, hkmem, rfl⟩
        exact hz k (by have := List.mem_range.mp hkmem; omega)
      rw [hzero, zero_add]
    · rw [ih (by omega), hz m (by omega), add_zero]

theorem label_chunk_cond (l bs : Nat) (hbs : 1 ≤ bs) :
    l / bs * bs ≤ l ∧ l < (l / bs + 1) * bs := by
  have hdm := Nat.div_add_mod l bs
  rw [Nat.mul_comm bs (l / bs)] at hdm
  have hmlt : l % bs < bs := Nat.mod_lt l (by omega)
  rw [Nat.add_mul, Nat.one_mul]
  generalize hA : l / bs * bs = A at hdm
  generalize hB : l % bs = B at hdm hmlt
  omega

theorem label_chunk_loss (row : List ℝ) (label : Int) (bs : Nat)
    (hbs : 1 ≤ bs) (hlab : label ≠ -100) (h0 : 0 ≤ label) (hL : label < (row.length : Int)) :
    (large_cross_entropy_forward row label bs (label.toNat / bs)).1 =
      -(row.getD label.toNat 0) := by
  rw [chunk_loss_eq row label bs _ hlab h0 hL,
    if_pos (label_chunk_cond label.toNat bs hbs)]

theorem other_chunk_loss (row : List ℝ) (label : Int) (bs k : Nat)
    (hbs : 1 ≤ bs) (hlab : label ≠ -100) (h0 : 0 ≤ label) (hL : label < (row.length : Int))
    (hk : k ≠ label.toNat / bs) :
    (large_cross_entropy_forward row label bs k).1 = 0 := by
  rw [chunk_loss_eq row label bs k hlab h0 hL, if_neg]
  rintro ⟨ha, hb⟩
  apply hk
  have hcond := label_chunk_cond label.toNat bs hbs
  rcases Nat.lt_trichotomy k (label.toNat / bs) with hlt | heq | hgt
  · have hstep : (k + 1) * bs ≤ label.toNat / bs * bs :=
      Nat.mul_le_mul_right bs (by omega)
    omega
  · exact heq
  · have hstep : (label.toNat / bs + 1) * bs ≤ k * bs :=
      Nat.mul_le_mul_right bs (by omega)
    omega

theorem label_chunk_lt (row : List ℝ) (label : Int) (bs : Nat)
    (hbs : 1 ≤ bs) (h0 : 0 ≤ label) (hL : label < (row.length : Int)) :
    label.toNat / bs < nChunksOf row.length bs := by
  have hLn : label.toNat < row.length := by omega
  rw [Nat.div_lt_iff_lt_mul (by omega : 0 < bs)]
  calc label.toNat < row.length := hLn
    _ ≤ nChunksOf row.length bs * bs := nChunksOf_mul_ge bs row.length hbs

theorem large_forward_loss_eq (row : List ℝ) (label : Int) (bs : Nat)
    (hbs : 1 ≤ bs) (hlab : label ≠ -100) (h0 : 0 ≤ label) (hL : label < (row.length : Int)) :
    (large_forward row label bs).1 =
      (large_forward row label bs).2 - row.getD label.toNat 0 := by
  have hlab' : ¬ label = IGNORE_INDEX := hlab
  have hsum : ((List.range (nChunksOf row.length bs)).map
      (Prod.fst ∘ fun k => large_cross_entropy_forward row label bs k)).sum =
      -(row.getD label.toNat 0) := by
    have hss := sum_range_single
      (Prod.fst ∘ fun k => large_cross_entropy_forward row label bs k)
      (nChunksOf row.length bs) (label.toNat / bs)
      (label_chunk_lt row label bs hbs h0 hL)
      (fun k hk => other_chunk_loss row label bs k hbs hlab h0 hL hk)
    rw [hss]
    exact label_chunk_loss row label bs hbs hlab h0 hL
  simp only [large_forward]
  rw [if_neg hlab', List.map_map, hsum]
  ring

/-- C4: in the chunked forward path exactly the label's chunk emits the
partial loss `-row[label]` with no log-sum-exp term, every other chunk emits
`0`, and the combine step adds the global log-sum-exp to the summed partials
exactly once, so the combined loss is `logsumexp - row[label]`. -/
theorem claim_C4 (row : List ℝ) (label : Int) (bs : Nat)
    (hbs : 1 ≤ bs) (hlab : label ≠ -100) (h0 : 0 ≤ label)
    (hL : label < (row.length : Int)) :
    (large_cross_entropy_forward row label bs (label.toNat / bs)).1 =
      -(row.getD label.toNat 0) ∧
    (∀ k, k ≠ label.toNat / bs → (large_cross_entropy_forward row label bs k).1 = 0) ∧
    (large_forward row label bs).1 =
      (large_forward row label bs).2 - row.getD label.toNat 0 :=
  ⟨label_chunk_loss row label bs hbs hlab h0 hL,
   fun k hk => other_chunk_loss row label bs k hbs hlab h0 hL hk,
   large_forward_loss_eq row label bs hbs hlab h0 hL⟩

/-- C4 witness: row `[1, 2, 3]`, chunk size `2`, label `2` (second chunk). -/
theorem claim_C4_witness :
    ((1 : Nat) ≤ 2 ∧ (2 : Int) ≠ -100 ∧ (0 : Int) ≤ 2 ∧
      (2 : Int) < (([(1:ℝ), 2, 3]).length : Int)) ∧
    (large_cross_entropy_forward [(1:ℝ), 2, 3] 2 2 ((2 : Int).toNat / 2)).1 =
      -(([(1:ℝ), 2, 3]).getD (2 : Int).toNat 0) ∧
    (∀ k, k ≠ (2 : Int).toNat / 2 →
      (large_cross_entropy_forward [(1:ℝ), 2, 3] 2 2 k).1 = 0) ∧
    (large_forward [(1:ℝ), 2, 3] 2 2).1 =
      (large_forward [(1:ℝ), 2, 3] 2 2).2 - ([(1:ℝ), 2, 3]).getD (2 : Int).toNat 0 := by
  refine ⟨⟨by norm_num, by norm_num, by norm_num, by norm_num⟩, ?_⟩
  exact claim_C4 [(1:ℝ), 2, 3] 2 2 (by norm_num) (by norm_num) (by norm_num) (by norm_num)

/-- C3: on every row the chunked path equals the single-pass path — the
per-chunk partial log-sum-exps combined with a second log-sum-exp (not a
plain sum) give the true log-sum-exp of the full row, and the per-row loss
is identical across both paths. -/
theorem claim_C3 (row : List ℝ) (label : Int) (bs : Nat)
    (hbs : 1 ≤ bs) (hrow : row ≠ [])
    (hlab : label = -100 ∨ (0 ≤ label ∧ label < (row.length : Int))) :
    large_forward row label bs = cross_entropy_forward row label ∧
    (large_forward row label bs).2 = Real.log ((row.map Real.exp).sum) := by
  have hlse := large_forward_lse_eq row label bs hbs hrow
  have hlse2 : (large_forward row label bs).2 = (cross_entropy_forward row label).2 := by
    rw [hlse, lse_independent_single]
  refine ⟨?_, by rw [hlse, rowLogsumexp_eq row hrow]⟩
  have hloss : (large_forward row label bs).1 = (cross_entropy_forward row label).1 := by
    rcases hlab with hig | ⟨h0, hL⟩
    · subst hig
      have h1 : (large_forward row (-100) bs).1 = 0 := large_loss_ignore row bs
      have h2 : (cross_entropy_forward row (-100)).1 = 0 := single_loss_ignore row
      rw [h1, h2]
    · have hlab' : label ≠ IGNORE_INDEX := by
        intro h
        rw [h] at h0
        simp only [IGNORE_INDEX] at h0
        omega
      have hlabne : label ≠ -100 := hlab'
      rw [large_forward_loss_eq row label bs hbs hlabne h0 hL, hlse2]
      simp only [cross_entropy_forward]
      rw [if_pos hlab']
  exact Prod.ext hloss hlse2

/-- C3 witness: row `[1, 2, 3]` with chunk size `2` against the single pass. -/
theorem claim_C3_witness :
    large_forward [(1:ℝ), 2, 3] 2 2 = cross_entropy_forward [(1:ℝ), 2, 3] 2 ∧
    (large_forward [(1:ℝ), 2, 3] 2 2).2 = Real.log ((([(1:ℝ), 2, 3]).map Real.exp).sum) :=
  claim_C3 [(1:ℝ), 2, 3] 2 2 (by norm_num) (by simp)
    (Or.inr ⟨by norm_num, by norm_num⟩)

theorem fast_forward_lse (row : List ℝ) (label : Int) (hrow : row ≠ []) :
    (Fast_CrossEntropyLoss_forward row label).2 = rowLogsumexp row := by
  unfold Fast_CrossEntropyLoss_forward
  split
  · exact lse_independent_single row label
  · exact large_forward_lse_eq row label MAX_FUSED_SIZE (by norm_num [MAX_FUSED_SIZE]) hrow

/-- C6: the top-level operation returns the summed per-row losses divided by
the count of non-ignored labels, whenever that count is positive. -/
theorem claim_C6 (rows : List (List ℝ)) (labels : List Int)
    (h : 0 < labels.countP (fun l => l ≠ IGNORE_INDEX)) :
    fast_cross_entropy_loss rows labels =
      FVal.num ((forward_losses rows labels).sum /
        (labels.countP (fun l => l ≠ IGNORE_INDEX) : ℝ)) := by
  simp only [fast_cross_entropy_loss, fdiv]
  rw [if_neg (Nat.cast_ne_zero.mpr (by omega))]

/-- C6 witness: one row `[1, 2]` with the valid label `0`. -/
theorem claim_C6_witness :
    0 < ([(0 : Int)]).countP (fun l => l ≠ IGNORE_INDEX) ∧
    fast_cross_entropy_loss [[(1:ℝ), 2]] [0] =
      FVal.num ((forward_losses [[(1:ℝ), 2]] [0]).sum /
        (([(0 : Int)]).countP (fun l => l ≠ IGNORE_INDEX) : ℝ)) :=
  ⟨by decide, claim_C6 [[(1:ℝ), 2]] [0] (by decide)⟩

/-- C7: when every label of the batch is the ignore sentinel, the final
normalization divides a zero loss sum by a zero count, which deterministically
produces NaN under float semantics. -/
theorem claim_C7 (rows : List (List ℝ)) (labels : List Int)
    (h : ∀ l ∈ labels, l = -100) :
    fast_cross_entropy_loss rows labels = FVal.nan := by
  have hcount : labels.countP (fun l => l ≠ IGNORE_INDEX) = 0 := by
    rw [List.countP_eq_zero]
    intro a ha
    rw [h a ha]
    simp [IGNORE_INDEX]
  have hsum : (forward_losses rows labels).sum = 0 := by
    apply List.sum_eq_zero
    intro x hx
    rcases List.mem_map.mp hx with ⟨⟨r, l⟩, hp, rfl⟩
    have hmem : l ∈ labels := (List.of_mem_zip hp).2
    show (Fast_CrossEntropyLoss_forward r l).1 = 0
    rw [h l hmem]
    exact fast_loss_ignore r
  simp only [fast_cross_entropy_loss]
  rw [hsum, hcount]
  simp [fdiv]

/-- C7 witness: a batch whose single label is `-100`. -/
theorem claim_C7_witness :
    (∀ l ∈ ([(-100 : Int)]), l = -100) ∧
    fast_cross_entropy_loss [[(1:ℝ)]] [-100] = FVal.nan := by
  have h : ∀ l ∈ ([(-100 : Int)]), l = -100 := by
    intro l hl
    simpa using hl
  exact ⟨h, claim_C7 [[(1:ℝ)]] [-100] h⟩

/-- C8: with the log-sum-exp produced by forward, the backward-written values
of a non-ignored row sum to zero: the softmax terms sum to `1` and the single
`-1` indicator cancels them, for any upstream gradient. -/
theorem claim_C8 (row : List ℝ) (label : Int) (d : ℝ)
    (hrow : row ≠ []) (hlab : label ≠ -100) (h0 : 0 ≤ label)
    (hL : label < (row.length : Int)) :
    (cross_entropy_backward row (Fast_CrossEntropyLoss_forward row label).2 label d).sum
      = 0 := by
  have hlab' : label ≠ IGNORE_INDEX := hlab
  rw [fast_forward_lse row label hrow, backward_unfold _ _ _ _ hlab',
    ce_backward_cols_sum _ _ _ row 0, softmax_sum_one row hrow, if_pos ?_]
  · ring
  · constructor
    · push_cast
      omega
    · push_cast
      omega

/-- C8 witness: row `[0, 1]`, label `1`, upstream gradient `2`. -/
theorem claim_C8_witness :
    (([(0:ℝ), 1] : List ℝ) ≠ [] ∧ (1 : Int) ≠ -100 ∧ (0 : Int) ≤ 1 ∧
      (1 : Int) < ((([(0:ℝ), 1] : List ℝ)).length : Int)) ∧
    (cross_entropy_backward [(0:ℝ), 1]
      (Fast_CrossEntropyLoss_forward [(0:ℝ), 1] 1).2 1 2).sum = 0 := by
  refine ⟨⟨by simp, by norm_num, by norm_num, by norm_num⟩, ?_⟩
  exact claim_C8 [(0:ℝ), 1] 1 2 (by simp) (by norm_num) (by norm_num) (by norm_num)

theorem sumexp_ge_one (xs : List ℝ) (h : xs ≠ []) :
    1 ≤ (xs.map (fun x => Real.exp (x - listMax xs))).sum := by
  have hnn : ∀ y ∈ xs.map (fun x => Real.exp (x - listMax xs)), 0 ≤ y := by
    intro y hy
    rcases List.mem_map.mp hy with ⟨x, _, rfl⟩
    exact (Real.exp_pos _).le
  have hmem : Real.exp (listMax xs - listMax xs) ∈
      xs.map (fun x => Real.exp (x - listMax xs)) :=
    List.mem_map.mpr ⟨listMax xs, listMax_mem xs h, rfl⟩
  have hle := List.single_le_sum hnn _ hmem
  simpa using hle

theorem sumexp_le_len (xs : List ℝ) :
    (xs.map (fun x => Real.exp (x - listMax xs))).sum ≤ (xs.length : ℝ) := by
  have hb : ∀ y ∈ xs.map (fun x => Real.exp (x - listMax xs)), y ≤ 1 := by
    intro y hy
    rcases List.mem_map.mp hy with ⟨x, hx, rfl⟩
    rw [← Real.exp_zero]
    exact Real.exp_le_exp.mpr (by linarith [le_listMax xs x hx])
  have := List.sum_le_card_nsmul _ 1 hb
  simpa [List.length_map, nsmul_eq_mul] using this

theorem lse_ge_listMax (xs : List ℝ) (h : xs ≠ []) :
    listMax xs ≤ rowLogsumexp xs := by
  unfold rowLogsumexp
  have := Real.log_nonneg (sumexp_ge_one xs h)
  linarith

/-- C9: overflow safety of the stabilized reducers — every exponential taken
by the forward reduction has a nonpositive argument (so it cannot overflow),
its log argument is at least `1`, the loss of a row bounded by `M` is within
the explicit finite bound `2M + log n`, and every backward-written gradient
value is bounded in magnitude by the upstream gradient. -/
theorem claim_C9 (row : List ℝ) (label : Int) (d M : ℝ)
    (hrow : row ≠ []) (hM : ∀ x ∈ row, |x| ≤ M)
    (hlab : label ≠ -100) (h0 : 0 ≤ label) (hL : label < (row.length : Int)) :
    (∀ x ∈ row, x - listMax row ≤ 0) ∧
    1 ≤ (row.map (fun x => Real.exp (x - listMax row))).sum ∧
    (0 ≤ (cross_entropy_forward row label).1 ∧
      (cross_entropy_forward row label).1 ≤ 2 * M + Real.log (row.length : ℝ)) ∧
    (∀ i, i < row.length →
      |(cross_entropy_backward row (rowLogsumexp row) label d).getD i 0| ≤ |d|) := by
  have hlab' : label ≠ IGNORE_INDEX := hlab
  have hln : label.toNat < row.length := by omega
  have hxl_mem : row.getD label.toNat 0 ∈ row := by
    rw [List.getD_eq_getElem row 0 hln]
    exact List.getElem_mem hln
  have hS1 := sumexp_ge_one row hrow
  have hSn := sumexp_le_len row
  have hlogS0 := Real.log_nonneg hS1
  have hcM : listMax row ≤ M :=
    le_trans (le_abs_self _) (hM _ (listMax_mem row hrow))
  have hxlM := abs_le.mp (hM _ hxl_mem)
  have hxlc := le_listMax row _ hxl_mem
  have hloss : (cross_entropy_forward row label).1 =
      listMax row + Real.log ((row.map (fun x => Real.exp (x - listMax row))).sum) -
        row.getD label.toNat 0 := by
    simp only [cross_entropy_forward]
    rw [if_pos hlab']
    rfl
  refine ⟨?_, hS1, ⟨?_, ?_⟩, ?_⟩
  · intro x hx
    have := le_listMax row x hx
    linarith
  · rw [hloss]
    linarith
  · rw [hloss]
    have hlogSn : Real.log ((row.map (fun x => Real.exp (x - listMax row))).sum) ≤
        Real.log (row.length : ℝ) :=
      Real.log_le_log (by linarith) hSn
    linarith
  · intro i hi
    rw [backward_unfold _ _ _ _ hlab', ce_backward_cols_getD _ _ _ row 0 i hi, abs_mul]
    have hxi_mem : row.getD i 0 ∈ row := by
      rw [List.getD_eq_getElem row 0 hi]
      exact List.getElem_mem hi
    have hxle : row.getD i 0 ≤ rowLogsumexp row :=
      le_trans (le_listMax row _ hxi_mem) (lse_ge_listMax row hrow)
    have hy1 : Real.exp (row.getD i 0 - rowLogsumexp row) ≤ 1 := by
      rw [← Real.exp_zero]
      exact Real.exp_le_exp.mpr (by linarith)
    have hy0 : 0 < Real.exp (row.getD i 0 - rowLogsumexp row) := Real.exp_pos _
    have hg : |if ((0 + i : Nat) : Int) = label then
        Real.exp (row.getD i 0 - rowLogsumexp row) - 1
        else Real.exp (row.getD i 0 - rowLogsumexp row)| ≤ 1 := by
      split
      · rw [abs_le]
        constructor <;> linarith
      · rw [abs_le]
        constructor <;> linarith
    calc |d| * |if ((0 + i : Nat) : Int) = label then
          Real.exp (row.getD i 0 - rowLogsumexp row) - 1
          else Real.exp (row.getD i 0 - rowLogsumexp row)|
        ≤ |d| * 1 := mul_le_mul_of_nonneg_left hg (abs_nonneg d)
      _ = |d| := mul_one _

/-- C9 witness: the row `[0, 1]` bounded by `M = 1`, label `1`, upstream `2`. -/
theorem claim_C9_witness :
    (([(0:ℝ), 1] : List ℝ) ≠ [] ∧ (∀ x ∈ ([(0:ℝ), 1] : List ℝ), |x| ≤ (1:ℝ)) ∧
      (1 : Int) ≠ -100 ∧ (0 : Int) ≤ 1 ∧
      (1 : Int) < ((([(0:ℝ), 1] : List ℝ)).length : Int)) ∧
    (0 ≤ (cross_entropy_forward [(0:ℝ), 1] 1).1 ∧
      (cross_entropy_forward [(0:ℝ), 1] 1).1 ≤
        2 * 1 + Real.log ((([(0:ℝ), 1] : List ℝ)).length : ℝ)) := by
  have hM : ∀ x ∈ ([(0:ℝ), 1] : List ℝ), |x| ≤ (1:ℝ) := by
    intro x hx
    rcases List.mem_cons.mp hx with h | h
    · rw [h]; norm_num
    · rcases List.mem_cons.mp h with h2 | h2
      · rw [h2]; norm_num
      · simp at h2
  refine ⟨⟨by simp, hM, by norm_num, by norm_num, by norm_num⟩, ?_⟩
  exact (claim_C9 [(0:ℝ), 1] 1 2 1 (by simp) hM (by norm_num) (by norm_num)
    (by norm_num)).2.2.1
